import Mathlib

/-!
Verification of the event-detection and speed-calibration core of the
shutter-analyzer repository (`shutter_analyzer/frame_analyzer.py` and
`shutter_analyzer/shutter_calculator.py`).

Modelling conventions:
* Python floats are modelled as exact rationals (`ℚ`); the arithmetic the
  code performs is translated literally.
* `numpy.sqrt` (used only to obtain the standard deviation inside
  `find_threshold_using_zscore`) and the external `sklearn` DBSCAN
  clustering pass (used inside `find_threshold_using_dbscan`) are not part
  of the repository; they are taken as explicit function parameters.
* Python lists become `List ℚ`; `None`-able values become `Option`.
-/

/-- Sort of a list of rationals, modelling Python `sorted` / numpy sort
(insertion sort is stable, like Python's sort). -/
def sortQ (xs : List ℚ) : List ℚ := xs.insertionSort (· ≤ ·)

/-- Sum of a list of rationals (Python `sum`). -/
def listSum (xs : List ℚ) : ℚ := xs.sum

/-- Arithmetic mean (Python `statistics.mean` / `numpy.mean`); the Python
code only applies it to non-empty lists, we return 0 on `[]`. -/
def listMean (xs : List ℚ) : ℚ := listSum xs / xs.length

/-- Python `max` over a list; the code only applies it to non-empty lists. -/
def maxQ (xs : List ℚ) : ℚ :=
  match xs with
  | [] => 0
  | x :: rest => rest.foldl max x

/-- Python `min` over a list; the code only applies it to non-empty lists. -/
def minQ (xs : List ℚ) : ℚ :=
  match xs with
  | [] => 0
  | x :: rest => rest.foldl min x

/-- Median as computed by `statistics.median` and `numpy.median`: middle
element of the sorted list for odd length, mean of the two middle elements
for even length. -/
def pyMedian (xs : List ℚ) : ℚ :=
  let s := sortQ xs
  let n := s.length
  if n % 2 = 1 then s.getD (n / 2) 0
  else (s.getD (n / 2 - 1) 0 + s.getD (n / 2) 0) / 2

/-- Linear interpolation step of `numpy.percentile` on an already sorted
list `s` at fractional position `p` (numpy's default "linear" mode:
`s[⌊p⌋] + (p - ⌊p⌋) * (s[⌊p⌋+1] - s[⌊p⌋])`). -/
def interpAt (s : List ℚ) (p : ℚ) : ℚ :=
  let k : ℕ := (Int.floor p).toNat
  match s.get? k with
  | none => 0
  | some a =>
    match s.get? (k + 1) with
    | none => a
    | some b => a + (p - k) * (b - a)

/-- `numpy.percentile(xs, q)` with the default linear interpolation:
position `q * (n - 1) / 100` into the sorted data. -/
def npPercentile (q : ℚ) (xs : List ℚ) : ℚ :=
  interpAt (sortQ xs) (q * ((xs.length : ℚ) - 1) / 100)

/-- Threshold of the "original" (percentile-margin) method, lines 119-126 of
`frame_analyzer.py`: `baseline + (median - baseline) * margin_factor`, and
if that equals the baseline exactly, `baseline + (max - baseline) * 0.1`.
The Python code reads the baseline from a percentile dictionary with keys
10/25/75/90; for those keys the value is `npPercentile pt`. -/
def originalThreshold (bv : List ℚ) (pt mf : ℚ) : ℚ :=
  let baseline := npPercentile pt bv
  let brightness_range := pyMedian bv - baseline
  let threshold := baseline + brightness_range * mf
  if threshold = baseline then baseline + (maxQ bv - baseline) * (1 / 10)
  else threshold

/-- The 40 z values `numpy.linspace(1.0, 5.0, 40)` swept by the z-score
search. -/
def zscoreGrid : List ℚ := (List.range 40).map (fun i => 1 + (i : ℚ) * 4 / 39)

/-- One step of the best-threshold fold of `find_threshold_using_zscore`:
state is `(best_threshold, best_diff)` with `none` standing for Python's
initial `float("inf")`; the update keeps the first strictly better
candidate. -/
def zscoreStep (bv : List ℚ) (k : ℕ) (mean std : ℚ) (acc : ℚ × Option ℕ) (z : ℚ) :
    ℚ × Option ℕ :=
  let threshold := mean + z * std
  let events_count := (bv.filter (fun b => threshold < b)).length
  let diff := ((events_count : ℤ) - (k : ℤ)).natAbs
  match acc.2 with
  | none => (threshold, some diff)
  | some bd => if diff < bd then (threshold, some diff) else acc

/-- `FrameAnalyzer.find_threshold_using_zscore`. `sqrtFn` stands for
`numpy`'s square root, applied to the population variance to obtain
`np.std`; the repository does not implement it. -/
def find_threshold_using_zscore (sqrtFn : ℚ → ℚ) (bv : List ℚ) (k : ℕ) : ℚ :=
  let mean := listMean bv
  let std := sqrtFn (listMean (bv.map (fun b => (b - mean) ^ 2)))
  if std < 1 / 1000000 then mean + 1 / 10
  else (zscoreGrid.foldl (zscoreStep bv k mean std) (mean, none)).1

/-- The 20 eps factors `numpy.linspace(0.01, 0.2, 20)` swept by the DBSCAN
search (step 0.01, so factor `(i+1)/100`). -/
def dbscanGrid : List ℚ := (List.range 20).map (fun i => ((i : ℚ) + 1) / 100)

/-- Mean brightness of each cluster: distinct non-noise labels in first
appearance order, each mapped to the mean of the points carrying it
(`cluster_means` in `find_threshold_using_dbscan`). -/
def clusterMeans (bv : List ℚ) (labels : List ℤ) : List ℚ :=
  ((labels.filter (fun l => l ≠ -1)).dedup).map
    (fun l => listMean (((bv.zip labels).filter (fun p => p.2 = l)).map Prod.fst))

/-- Candidate thresholds of one DBSCAN pass: midpoints between adjacent
cluster means after sorting the means, paired with the distance between the
resulting above-threshold count and the expected count. -/
def dbscanCandidates (bv : List ℚ) (k : ℕ) (means : List ℚ) : List (ℚ × ℕ) :=
  let s := sortQ means
  (s.zip s.tail).map (fun p =>
    let threshold := (p.1 + p.2) / 2
    let events_count := (bv.filter (fun b => threshold < b)).length
    (threshold, ((events_count : ℤ) - (k : ℤ)).natAbs))

/-- Python `min(potential_thresholds, key=lambda x: x[1])`: first element
with minimal second component. -/
def minByDiff (l : List (ℚ × ℕ)) : Option (ℚ × ℕ) :=
  l.foldl (fun acc p =>
    match acc with
    | none => some p
    | some q => if p.2 < q.2 then some p else acc) none

/-- One eps step of `find_threshold_using_dbscan`'s sweep: run the
clustering oracle, build candidate thresholds, and keep the strictly best
one seen so far (state `(best_threshold, best_diff)`, `none` = infinity). -/
def dbscanStep (cluster : List ℚ → ℚ → ℕ → List ℤ) (bv : List ℚ) (k : ℕ)
    (data_range : ℚ) (acc : ℚ × Option ℕ) (eps_factor : ℚ) : ℚ × Option ℕ :=
  let eps := data_range * eps_factor
  let labels := cluster bv eps 5
  match minByDiff (dbscanCandidates bv k (clusterMeans bv labels)) with
  | none => acc
  | some (threshold, diff) =>
    match acc.2 with
    | none => (threshold, some diff)
    | some bd => if diff < bd then (threshold, some diff) else acc

/-- `FrameAnalyzer.find_threshold_using_dbscan`. `cluster` stands for the
external `sklearn.cluster.DBSCAN(eps, min_samples).fit` labelling, which
the repository does not implement: it receives the points, `eps` and
`min_samples` and returns one integer label per point (noise = -1).
On near-zero data range the function returns
`np.percentile(bv, 100 - k / len(bv) * 100)` before any clustering. -/
def find_threshold_using_dbscan (cluster : List ℚ → ℚ → ℕ → List ℤ)
    (bv : List ℚ) (k : ℕ) : ℚ :=
  let data_range := maxQ bv - minQ bv
  if data_range < 1 / 1000000 then
    npPercentile (100 - ((k : ℚ) / (bv.length : ℚ) * 100)) bv
  else
    (dbscanGrid.foldl (dbscanStep cluster bv k data_range)
      (npPercentile 95 bv, none)).1

/-- Threshold selection of `FrameAnalyzer.analyze_brightness_distribution`
(lines 110-126): z-score or DBSCAN only when the method is selected AND an
expected event count was supplied; every other combination falls through to
the original percentile-margin formula. -/
def analyze_brightness_distribution_threshold (sqrtFn : ℚ → ℚ)
    (cluster : List ℚ → ℚ → ℕ → List ℤ) (bv : List ℚ) (pt mf : ℚ)
    (method : String) (expected_events_count : Option ℕ) : ℚ :=
  match method, expected_events_count with
  | "zscore", some k => find_threshold_using_zscore sqrtFn bv k
  | "dbscan", some k => find_threshold_using_dbscan cluster bv k
  | _, _ => originalThreshold bv pt mf

/-- `FrameAnalyzer.is_shutter_open`: strict comparison against the
threshold. -/
def is_shutter_open (brightness threshold : ℚ) : Bool := threshold < brightness

/-- Scan loop of `FrameAnalyzer.find_shutter_events`: `i` is the index of
the head of the remaining list, the state is `none` (shutter closed) or
`some (start, values)` (event open since `start`). When the list ends with
an open event it closes at the last index (`i - 1`). -/
def fseAux (t : ℚ) : List ℚ → ℕ → Option (ℕ × List ℚ) → List (ℕ × ℕ × List ℚ)
  | [], _, none => []
  | [], i, some (s, vs) => [(s, i - 1, vs)]
  | b :: rest, i, none =>
    if is_shutter_open b t then fseAux t rest (i + 1) (some (i, [b]))
    else fseAux t rest (i + 1) none
  | b :: rest, i, some (s, vs) =>
    if is_shutter_open b t then fseAux t rest (i + 1) (some (s, vs ++ [b]))
    else (s, i - 1, vs) :: fseAux t rest (i + 1) none

/-- `FrameAnalyzer.find_shutter_events`: contiguous runs of frames with
brightness strictly above the threshold, as `(start, end, values)` with
inclusive ends. -/
def find_shutter_events (bv : List ℚ) (t : ℚ) : List (ℕ × ℕ × List ℚ) :=
  fseAux t bv 0 none

/-- Plateau means of `FrameAnalyzer.calculate_peak_brightness`: for each
event with enough frames at `≥ event_max * plateau_threshold`, the mean of
those frames, in event order. -/
def plateauMeans (events : List (ℕ × ℕ × List ℚ)) (plateau_threshold : ℚ)
    (min_plateau_frames : ℕ) : List ℚ :=
  events.filterMap (fun ev =>
    if ev.2.2.isEmpty then none
    else
      let event_max := maxQ ev.2.2
      let plateau := ev.2.2.filter (fun b => event_max * plateau_threshold ≤ b)
      if min_plateau_frames ≤ plateau.length then some (listMean plateau)
      else none)

/-- All event brightness values pooled in event order
(`all_event_brightness` in `calculate_peak_brightness`). -/
def allEventBrightness (events : List (ℕ × ℕ × List ℚ)) : List ℚ :=
  (events.map (fun ev => ev.2.2)).flatten

/-- `FrameAnalyzer.calculate_peak_brightness`: median of the plateau means
of qualifying events; if none qualifies, the 95th percentile of all pooled
event values; `none` when there is nothing to pool. -/
def calculate_peak_brightness (events : List (ℕ × ℕ × List ℚ))
    (plateau_threshold : ℚ) (min_plateau_frames : ℕ) : Option ℚ :=
  if events.isEmpty then none
  else
    let pm := plateauMeans events plateau_threshold min_plateau_frames
    if !pm.isEmpty then some (pyMedian pm)
    else
      let all := allEventBrightness events
      if !all.isEmpty then some (npPercentile 95 all) else none

/-- `ShutterEvent` of `shutter_calculator.py`: one contiguous run of open
frames, with optional shared baseline/peak scalars captured at creation. -/
structure ShutterEvent where
  start_frame : ℕ
  end_frame : ℕ
  brightness_values : List ℚ
  baseline_brightness : Option ℚ
  peak_brightness : Option ℚ
deriving DecidableEq, Repr

/-- `ShutterEvent.duration_frames`: `end_frame - start_frame + 1`, over ℤ
as in Python (no truncation when `end_frame < start_frame`). -/
def ShutterEvent.duration_frames (e : ShutterEvent) : ℤ :=
  (e.end_frame : ℤ) - (e.start_frame : ℤ) + 1

/-- Clamped weight of one frame in `ShutterEvent.weighted_duration_frames`:
`max(0, min(1, (b - baseline) / (event_peak - baseline)))`. -/
def frameWeight (base event_peak b : ℚ) : ℚ :=
  max 0 (min 1 ((b - base) / (event_peak - base)))

/-- `ShutterEvent.weighted_duration_frames`: unweighted duration when the
value list is empty, when no baseline is set, or when the event's median
does not exceed the baseline; otherwise the sum of the per-frame clamped
weights against the event's own median. -/
def ShutterEvent.weighted_duration_frames (e : ShutterEvent) : ℚ :=
  if e.brightness_values.isEmpty then (e.duration_frames : ℚ)
  else
    match e.baseline_brightness with
    | none => (e.duration_frames : ℚ)
    | some base =>
      let event_peak := pyMedian e.brightness_values
      if event_peak ≤ base then (e.duration_frames : ℚ)
      else listSum (e.brightness_values.map (frameWeight base event_peak))

/-- `ShutterSpeedCalculator.calculate_duration_seconds`. -/
def calculate_duration_seconds (start_frame end_frame : ℤ) (fps : ℚ)
    (recording_fps : Option ℚ) : ℚ :=
  let frame_count : ℚ := ((end_frame - start_frame + 1 : ℤ) : ℚ)
  match recording_fps with
  | some r => (frame_count / fps) * (fps / r)
  | none => frame_count / fps

/-- The `duration` local of `ShutterSpeedCalculator.calculate_shutter_speed`
(the denominator of the returned reciprocal): selected frame count divided
by the effective fps. -/
def shutterSpeedDenom (e : ShutterEvent) (fps : ℚ) (recording_fps : Option ℚ)
    (use_weighted : Bool) : ℚ :=
  let frame_count : ℚ :=
    if use_weighted && e.baseline_brightness.isSome then
      e.weighted_duration_frames
    else (e.duration_frames : ℚ)
  let effective_fps :=
    match recording_fps with
    | some r => r
    | none => fps
  frame_count / effective_fps

/-- `ShutterSpeedCalculator.calculate_shutter_speed`: reciprocal of the
selected duration. -/
def calculate_shutter_speed (e : ShutterEvent) (fps : ℚ)
    (recording_fps : Option ℚ) (use_weighted : Bool) : ℚ :=
  1 / shutterSpeedDenom e fps recording_fps use_weighted

/-- Sort order used on events by `group_shutter_events`
(`key=lambda e: e.duration_frames`). -/
def evLE (a b : ShutterEvent) : Prop := a.duration_frames ≤ b.duration_frames

instance : DecidableRel evLE := fun a b =>
  inferInstanceAs (Decidable (a.duration_frames ≤ b.duration_frames))

instance : IsTotal ShutterEvent evLE := ⟨fun _ _ => le_total _ _⟩

instance : IsTrans ShutterEvent evLE := ⟨fun _ _ _ => le_trans⟩

/-- The element-wise pairing built by
`ShutterSpeedCalculator.group_shutter_events`: events sorted ascending by
duration, expected speeds sorted ascending, both truncated to the shorter
length, zipped. -/
def pairedEvents (events : List ShutterEvent) (expected_speeds : List ℚ) :
    List (ShutterEvent × ℚ) :=
  let expected_speeds_sorted := expected_speeds.insertionSort (· ≤ ·)
  let sorted_events := events.insertionSort evLE
  let min_length := min sorted_events.length expected_speeds_sorted.length
  (sorted_events.take min_length).zip (expected_speeds_sorted.take min_length)

/-- Append `v` under `key` in an insertion-ordered association list,
modelling the Python dict building of `group_shutter_events`
(`result[expected].append(...)` with first-insertion key order). -/
def dictAppend (d : List (ℚ × List (ShutterEvent × ℚ))) (key : ℚ)
    (v : ShutterEvent × ℚ) : List (ℚ × List (ShutterEvent × ℚ)) :=
  if d.any (fun kv => kv.1 = key) then
    d.map (fun kv => if kv.1 = key then (kv.1, kv.2 ++ [v]) else kv)
  else d ++ [(key, [v])]

/-- `ShutterSpeedCalculator.group_shutter_events`: each sorted/truncated
pair is recorded under its expected speed with the measured speed computed
by `calculate_shutter_speed(event, fps)` (defaults: no recording fps,
weighting on). -/
def group_shutter_events (events : List ShutterEvent)
    (expected_speeds : List ℚ) (fps : ℚ) :
    List (ℚ × List (ShutterEvent × ℚ)) :=
  (pairedEvents events expected_speeds).foldl
    (fun result p =>
      dictAppend result p.2 (p.1, calculate_shutter_speed p.1 fps none true))
    []

/-- Placeholder square-root oracle for concrete instantiations (its values
are irrelevant on the branches exercised; `numpy.sqrt 0 = 0` is the only
fact the theorems use). -/
def sqrt0 : ℚ → ℚ := fun _ => 0

/-- Placeholder clustering oracle for concrete instantiations (never
consulted on the degenerate branch the theorems exercise). -/
def cluster0 : List ℚ → ℚ → ℕ → List ℤ := fun _ _ _ => []

/-- Concrete event with integer duration 5 (frames 0..4, no stored values,
no baseline), used in the matching example. -/
def evDur5 : ShutterEvent := ⟨0, 4, [], none, none⟩

/-- Concrete event with integer duration 10, used in the matching example. -/
def evDur10 : ShutterEvent := ⟨0, 9, [], none, none⟩

/-- Concrete event with integer duration 50, used in the matching example. -/
def evDur50 : ShutterEvent := ⟨0, 49, [], none, none⟩

lemma listMean_const {bv : List ℚ} {c : ℚ} (hne : bv ≠ []) (hc : ∀ b ∈ bv, b = c) :
    listMean bv = c := by
  have hsum : bv.sum = bv.length • c := List.sum_eq_card_nsmul bv c hc
  have hn : (bv.length : ℚ) ≠ 0 := by
    exact_mod_cast Nat.pos_iff_ne_zero.mp (List.length_pos.mpr hne)
  rw [listMean, listSum, hsum, nsmul_eq_mul]
  field_simp

lemma foldl_max_const {c : ℚ} : ∀ (l : List ℚ), (∀ b ∈ l, b = c) → l.foldl max c = c := by
  intro l
  induction l with
  | nil => intro _; rfl
  | cons x xs ih =>
    intro h
    have hx : x = c := h x (List.mem_cons_self x xs)
    simp only [List.foldl_cons, hx, max_self]
    exact ih fun b hb => h b (List.mem_cons_of_mem x hb)

lemma maxQ_const {bv : List ℚ} {c : ℚ} (hne : bv ≠ []) (hc : ∀ b ∈ bv, b = c) :
    maxQ bv = c := by
  cases bv with
  | nil => exact absurd rfl hne
  | cons x xs =>
    have hx : x = c := hc x (List.mem_cons_self x xs)
    simp only [maxQ, hx]
    exact foldl_max_const xs fun b hb => hc b (List.mem_cons_of_mem x hb)

lemma foldl_min_const {c : ℚ} : ∀ (l : List ℚ), (∀ b ∈ l, b = c) → l.foldl min c = c := by
  intro l
  induction l with
  | nil => intro _; rfl
  | cons x xs ih =>
    intro h
    have hx : x = c := h x (List.mem_cons_self x xs)
    simp only [List.foldl_cons, hx, min_self]
    exact ih fun b hb => h b (List.mem_cons_of_mem x hb)

lemma minQ_const {bv : List ℚ} {c : ℚ} (hne : bv ≠ []) (hc : ∀ b ∈ bv, b = c) :
    minQ bv = c := by
  cases bv with
  | nil => exact absurd rfl hne
  | cons x xs =>
    have hx : x = c := hc x (List.mem_cons_self x xs)
    simp only [minQ, hx]
    exact foldl_min_const xs fun b hb => hc b (List.mem_cons_of_mem x hb)

lemma sortQ_sorted (xs : List ℚ) : (sortQ xs).Sorted (· ≤ ·) :=
  List.sorted_insertionSort _ xs

lemma sortQ_perm (xs : List ℚ) : List.Perm (sortQ xs) xs :=
  List.perm_insertionSort _ xs

lemma sortQ_length (xs : List ℚ) : (sortQ xs).length = xs.length :=
  (sortQ_perm xs).length_eq

lemma sortQ_mem {xs : List ℚ} {x : ℚ} (h : x ∈ sortQ xs) : x ∈ xs :=
  (sortQ_perm xs).subset h

lemma npPercentile_const {bv : List ℚ} {c : ℚ} (hne : bv ≠ []) (hc : ∀ b ∈ bv, b = c)
    {q : ℚ} (h0 : 0 ≤ q) (h1 : q ≤ 100) : npPercentile q bv = c := by
  have hn : 1 ≤ bv.length := List.length_pos.mpr hne
  have hsc : ∀ b ∈ sortQ bv, b = c := fun b hb => hc b (sortQ_mem hb)
  set p : ℚ := q * ((bv.length : ℚ) - 1) / 100 with hp
  have hn1 : (0 : ℚ) ≤ (bv.length : ℚ) - 1 := by
    have : (1 : ℚ) ≤ (bv.length : ℚ) := by exact_mod_cast hn
    linarith
  have hp0 : 0 ≤ p := by positivity
  have hpub : p ≤ (bv.length : ℚ) - 1 := by
    rw [hp, div_le_iff (by norm_num : (0:ℚ) < 100)]
    nlinarith
  have hfl : (Int.floor p).toNat < bv.length := by
    have h2 : Int.floor p ≤ Int.floor ((bv.length : ℚ) - 1) := Int.floor_le_floor hpub
    have h3 : Int.floor ((bv.length : ℚ) - 1) = (bv.length : ℤ) - 1 := by
      rw [show ((bv.length : ℚ) - 1) = (((bv.length : ℤ) - 1 : ℤ) : ℚ) by push_cast; ring]
      exact Int.floor_intCast _
    omega
  have hfl' : (Int.floor p).toNat < (sortQ bv).length := by rwa [sortQ_length]
  rw [npPercentile, interpAt]
  rw [List.get?_eq_get hfl']
  have ha : (sortQ bv).get ⟨(Int.floor p).toNat, hfl'⟩ = c :=
    hsc _ (List.get_mem _ _ _)
  cases h2 : (sortQ bv).get? ((Int.floor p).toNat + 1) with
  | none => simpa using ha
  | some b =>
    have hb : b = c := hsc b (List.get?_mem h2)
    simp only [ha, hb]
    ring

/-- Claim C1 counterexample: with method `zscore` (resp. `dbscan`) and no
expected event count, the threshold selection of
`analyze_brightness_distribution` does not fail: on the series
`[10, 10, 10, 80]` it silently computes the original percentile-margin
threshold 17 instead of reporting a configuration error. -/
theorem analyze_threshold_no_config_error :
    analyze_brightness_distribution_threshold sqrt0 cluster0 [10, 10, 10, 80]
        25 (3 / 2) "zscore" none = 17
    ∧ analyze_brightness_distribution_threshold sqrt0 cluster0 [10, 10, 10, 80]
        25 (3 / 2) "dbscan" none = 17
    ∧ originalThreshold [10, 10, 10, 80] 25 (3 / 2) = 17 := by
  have horig : originalThreshold [10, 10, 10, 80] 25 (3 / 2) = 17 := by
    norm_num [originalThreshold, npPercentile, interpAt, sortQ,
      List.insertionSort, List.orderedInsert, pyMedian, maxQ]
  exact ⟨horig, horig, horig⟩

/-- Claim C1 (amended): when the method is `zscore` or `dbscan` but no
expected event count is supplied, `analyze_brightness_distribution` raises
no configuration error and silently falls back to the original
percentile-margin threshold for every input series; the fail-fast
validation exists only in the CLI front end (`main.py`), not in this
function. -/
theorem analyze_threshold_silent_fallback :
    ∀ (sq : ℚ → ℚ) (cl : List ℚ → ℚ → ℕ → List ℤ) (bv : List ℚ) (pt mf : ℚ),
      analyze_brightness_distribution_threshold sq cl bv pt mf "zscore" none
          = originalThreshold bv pt mf
        ∧ analyze_brightness_distribution_threshold sq cl bv pt mf "dbscan" none
          = originalThreshold bv pt mf :=
  fun _ _ _ _ _ => ⟨rfl, rfl⟩

/-- Claim C6: with a recording fps the measured duration is
`(frame_count / fps) * (fps / recording_fps)`, which simplifies to
`frame_count / recording_fps`; without one it is `frame_count / fps`. -/
theorem calculate_duration_seconds_spec (s e : ℤ) (fps r : ℚ)
    (_hse : s ≤ e) (hfps : 0 < fps) (hr : 0 < r) :
    calculate_duration_seconds s e fps (some r)
        = (((e - s + 1 : ℤ) : ℚ) / fps) * (fps / r)
    ∧ calculate_duration_seconds s e fps (some r) = ((e - s + 1 : ℤ) : ℚ) / r
    ∧ calculate_duration_seconds s e fps none = ((e - s + 1 : ℤ) : ℚ) / fps := by
  refine ⟨rfl, ?_, rfl⟩
  show (((e - s + 1 : ℤ) : ℚ) / fps) * (fps / r) = ((e - s + 1 : ℤ) : ℚ) / r
  field_simp

/-- Claim C6 witness: frames 3..7 at 100 fps saved / 25 fps recorded. -/
theorem calculate_duration_seconds_spec_witness :
    calculate_duration_seconds 3 7 100 (some 25) = 1 / 5
    ∧ calculate_duration_seconds 3 7 100 none = 1 / 20 := by
  have h := calculate_duration_seconds_spec 3 7 100 25 (by norm_num)
    (by norm_num) (by norm_num)
  refine ⟨?_, ?_⟩
  · rw [h.2.1]; norm_num
  · rw [h.2.2]; norm_num

/-- Claim C4 counterexample: on the constant series `[5, 5, 5, 5]` with one
expected event, the DBSCAN threshold finder returns the 75th percentile of
the series, which is the constant 5 itself — not strictly greater than the
series' constant value as the claim states. -/
theorem dbscan_const_not_strictly_above :
    find_threshold_using_dbscan cluster0 [5, 5, 5, 5] 1 = 5
    ∧ ¬ ((5 : ℚ) < find_threshold_using_dbscan cluster0 [5, 5, 5, 5] 1) := by
  have h : find_threshold_using_dbscan cluster0 [5, 5, 5, 5] 1 = 5 := by
    norm_num [find_threshold_using_dbscan, maxQ, minQ, npPercentile, interpAt,
      sortQ, List.insertionSort, List.orderedInsert,
      show Int.toNat 2 = 2 from rfl]
  exact ⟨h, by rw [h]; exact lt_irrefl 5⟩

/-- Claim C4 (amended): on a non-empty constant series both degenerate
branches terminate with a finite value and never raise; the z-score method
returns `mean + 0.1`, strictly above the constant, while the DBSCAN method
returns a percentile of the constant series, i.e. exactly the constant
value (not strictly above it). -/
theorem zero_variance_thresholds (sq : ℚ → ℚ) (cl : List ℚ → ℚ → ℕ → List ℤ)
    (bv : List ℚ) (c : ℚ) (k : ℕ) (hne : bv ≠ []) (hconst : ∀ b ∈ bv, b = c)
    (hsq : sq 0 = 0) (hk : 0 < k) (hkn : k ≤ bv.length) :
    find_threshold_using_zscore sq bv k = c + 1 / 10
    ∧ c < find_threshold_using_zscore sq bv k
    ∧ find_threshold_using_dbscan cl bv k = c := by
  have hmean : listMean bv = c := listMean_const hne hconst
  have hvar : listMean (bv.map (fun b => (b - listMean bv) ^ 2)) = 0 := by
    have hmap : bv.map (fun b => (b - listMean bv) ^ 2) = bv.map (fun _ => 0) := by
      apply List.map_congr_left
      intro a ha
      rw [hmean, hconst a ha]
      ring
    rw [hmap]
    have hsum : (bv.map (fun _ => (0 : ℚ))).sum = 0 :=
      List.sum_eq_zero fun x hx => by
        rcases List.mem_map.mp hx with ⟨a, _, ha⟩
        exact ha.symm
    rw [listMean, listSum, hsum, zero_div]
  have hz : find_threshold_using_zscore sq bv k = c + 1 / 10 := by
    simp only [find_threshold_using_zscore]
    rw [hvar, hsq, if_pos (by norm_num : (0 : ℚ) < 1 / 1000000), hmean]
  have hnq : (0 : ℚ) < (bv.length : ℚ) := by
    exact_mod_cast List.length_pos.mpr hne
  have hd : find_threshold_using_dbscan cl bv k = c := by
    simp only [find_threshold_using_dbscan]
    rw [maxQ_const hne hconst, minQ_const hne hconst, sub_self,
      if_pos (by norm_num : (0 : ℚ) < 1 / 1000000)]
    apply npPercentile_const hne hconst
    · have hdiv : (k : ℚ) / (bv.length : ℚ) ≤ 1 := by
        rw [div_le_one hnq]
        exact_mod_cast hkn
      nlinarith
    · have hdiv : 0 ≤ (k : ℚ) / (bv.length : ℚ) := by positivity
      nlinarith
  exact ⟨hz, by rw [hz]; linarith, hd⟩

/-- Claim C4 witness: the constant series `[5, 5, 5]` with one expected
event. -/
theorem zero_variance_thresholds_witness :
    find_threshold_using_zscore sqrt0 [5, 5, 5] 1 = 5 + 1 / 10
    ∧ (5 : ℚ) < find_threshold_using_zscore sqrt0 [5, 5, 5] 1
    ∧ find_threshold_using_dbscan cluster0 [5, 5, 5] 1 = 5 :=
  zero_variance_thresholds sqrt0 cluster0 [5, 5, 5] 5 1 (by simp)
    (by intro b hb; simpa using hb) rfl (by norm_num) (by norm_num)

lemma sum_map_le_length (l : List ℚ) (f : ℚ → ℚ) (h : ∀ b ∈ l, f b ≤ 1) :
    (l.map f).sum ≤ (l.length : ℚ) := by
  induction l with
  | nil => simp
  | cons x xs ih =>
    simp only [List.map_cons, List.sum_cons, List.length_cons]
    have h1 := h x (List.mem_cons_self x xs)
    have h2 := ih fun b hb => h b (List.mem_cons_of_mem x hb)
    push_cast
    linarith

lemma sum_map_eq_length (l : List ℚ) (f : ℚ → ℚ) (h : ∀ b ∈ l, f b = 1) :
    (l.map f).sum = (l.length : ℚ) := by
  induction l with
  | nil => simp
  | cons x xs ih =>
    simp only [List.map_cons, List.sum_cons, List.length_cons]
    rw [h x (List.mem_cons_self x xs),
      ih fun b hb => h b (List.mem_cons_of_mem x hb)]
    push_cast
    ring

lemma one_le_sum_map (l : List ℚ) (f : ℚ → ℚ) (hf0 : ∀ b ∈ l, 0 ≤ f b)
    {b0 : ℚ} (hb0 : b0 ∈ l) (h1 : 1 ≤ f b0) : 1 ≤ (l.map f).sum := by
  induction l with
  | nil => cases hb0
  | cons x xs ih =>
    simp only [List.map_cons, List.sum_cons]
    rcases List.mem_cons.mp hb0 with h | h
    · have hrest : 0 ≤ (xs.map f).sum :=
        List.sum_nonneg fun y hy => by
          rcases List.mem_map.mp hy with ⟨a, ha, rfl⟩
          exact hf0 a (List.mem_cons_of_mem x ha)
      rw [← h]
      linarith
    · have hx := hf0 x (List.mem_cons_self x xs)
      have := ih (fun b hb => hf0 b (List.mem_cons_of_mem x hb)) h
      linarith

lemma frameWeight_le_one (base p b : ℚ) : frameWeight base p b ≤ 1 := by
  rw [frameWeight]
  exact max_le (by norm_num) (min_le_left _ _)

lemma frameWeight_nonneg (base p b : ℚ) : 0 ≤ frameWeight base p b :=
  le_max_left _ _

lemma frameWeight_eq_one {base p b : ℚ} (h : base < p) (hb : p ≤ b) :
    frameWeight base p b = 1 := by
  rw [frameWeight]
  have hpos : 0 < p - base := sub_pos.mpr h
  have h1 : 1 ≤ (b - base) / (p - base) := by
    rw [le_div_iff hpos]
    linarith
  rw [min_eq_left h1, max_eq_right (by norm_num : (0 : ℚ) ≤ 1)]

lemma exists_pyMedian_le (xs : List ℚ) (h : xs ≠ []) :
    ∃ b ∈ xs, pyMedian xs ≤ b := by
  have hsort := sortQ_sorted xs
  have hn : 1 ≤ (sortQ xs).length := by
    rw [sortQ_length]
    exact List.length_pos.mpr h
  by_cases hodd : (sortQ xs).length % 2 = 1
  · have hlt : (sortQ xs).length / 2 < (sortQ xs).length := by omega
    refine ⟨(sortQ xs).get ⟨(sortQ xs).length / 2, hlt⟩,
      sortQ_mem (List.get_mem _ _ _), ?_⟩
    simp only [pyMedian]
    rw [if_pos hodd, List.getD_eq_get _ _ hlt]
  · have hm1 : 1 ≤ (sortQ xs).length / 2 := by omega
    have hmlt : (sortQ xs).length / 2 < (sortQ xs).length := by omega
    have hm1lt : (sortQ xs).length / 2 - 1 < (sortQ xs).length := by omega
    refine ⟨(sortQ xs).get ⟨(sortQ xs).length / 2, hmlt⟩,
      sortQ_mem (List.get_mem _ _ _), ?_⟩
    simp only [pyMedian]
    rw [if_neg hodd, List.getD_eq_get _ _ hm1lt, List.getD_eq_get _ _ hmlt]
    have hrel : (sortQ xs).get ⟨(sortQ xs).length / 2 - 1, hm1lt⟩
        ≤ (sortQ xs).get ⟨(sortQ xs).length / 2, hmlt⟩ := by
      apply List.Sorted.rel_get_of_lt hsort
      simp only [Fin.mk_lt_mk]
      omega
    linarith

/-- Claim C5: with non-empty values, a set baseline, and event median above
the baseline, the weighted duration is the sum of the clamped per-frame
weights; it never exceeds the integer duration, reaches it exactly when
every frame is at or above the event's median, and every degenerate branch
(median not above baseline, or baseline absent) falls back to the integer
duration. -/
theorem weighted_duration_frames_spec (e : ShutterEvent)
    (hnv : e.brightness_values ≠ [])
    (hlen : (e.brightness_values.length : ℤ) = e.duration_frames) :
    e.weighted_duration_frames ≤ (e.duration_frames : ℚ)
    ∧ (∀ base, e.baseline_brightness = some base →
        base < pyMedian e.brightness_values →
          e.weighted_duration_frames
              = listSum (e.brightness_values.map
                  (frameWeight base (pyMedian e.brightness_values)))
            ∧ ((∀ b ∈ e.brightness_values, pyMedian e.brightness_values ≤ b) →
                e.weighted_duration_frames = (e.duration_frames : ℚ)))
    ∧ (∀ base, e.baseline_brightness = some base →
        pyMedian e.brightness_values ≤ base →
          e.weighted_duration_frames = (e.duration_frames : ℚ))
    ∧ (e.baseline_brightness = none →
        e.weighted_duration_frames = (e.duration_frames : ℚ)) := by
  have hie : e.brightness_values.isEmpty = false := by
    simpa [List.isEmpty_iff] using hnv
  have hlenQ : ((e.brightness_values.length : ℚ)) = ((e.duration_frames : ℚ)) := by
    exact_mod_cast hlen
  cases hb : e.baseline_brightness with
  | none =>
    have hw : e.weighted_duration_frames = (e.duration_frames : ℚ) := by
      simp [ShutterEvent.weighted_duration_frames, hie, hb]
    refine ⟨le_of_eq hw, ?_, ?_, fun _ => hw⟩
    · intro base hbase
      exact Option.noConfusion hbase
    · intro base hbase
      exact Option.noConfusion hbase
  | some base =>
    by_cases hpb : pyMedian e.brightness_values ≤ base
    · have hw : e.weighted_duration_frames = (e.duration_frames : ℚ) := by
        simp [ShutterEvent.weighted_duration_frames, hie, hb, hpb]
      refine ⟨le_of_eq hw, ?_, fun _ _ _ => hw, ?_⟩
      · intro base' hbase' hlt
        have hbb : base' = base := (Option.some.inj hbase').symm
        subst hbb
        exact absurd hpb (not_le.mpr hlt)
      · intro hnone
        exact Option.noConfusion hnone
    · have hw : e.weighted_duration_frames
          = listSum (e.brightness_values.map
              (frameWeight base (pyMedian e.brightness_values))) := by
        simp [ShutterEvent.weighted_duration_frames, hie, hb, hpb]
      have hle : e.weighted_duration_frames ≤ (e.duration_frames : ℚ) := by
        rw [hw, listSum, ← hlenQ]
        exact sum_map_le_length _ _ fun b _ => frameWeight_le_one _ _ b
      refine ⟨hle, ?_, ?_, ?_⟩
      · intro base' hbase' hlt
        have hbb : base' = base := (Option.some.inj hbase').symm
        subst hbb
        refine ⟨hw, fun hall => ?_⟩
        rw [hw, listSum, ← hlenQ]
        exact sum_map_eq_length _ _ fun b hbmem =>
          frameWeight_eq_one hlt (hall b hbmem)
      · intro base' hbase' hle'
        have hbb : base' = base := (Option.some.inj hbase').symm
        subst hbb
        exact absurd hle' hpb
      · intro hnone
        exact Option.noConfusion hnone

/-- Claim C5 witness: the docstring example event with values
`[20, 80, 80, 100, 100, 80, 20]`, frames 0..6 and baseline 0 (its median is
80, so the weighted branch applies). -/
theorem weighted_duration_frames_spec_witness :
    (⟨0, 6, [20, 80, 80, 100, 100, 80, 20], some 0, none⟩
        : ShutterEvent).weighted_duration_frames ≤ 7 := by
  have h := (weighted_duration_frames_spec
    ⟨0, 6, [20, 80, 80, 100, 100, 80, 20], some 0, none⟩ (by simp)
    (by norm_num [ShutterEvent.duration_frames])).1
  have hd : ((⟨0, 6, [20, 80, 80, 100, 100, 80, 20], some 0, none⟩
      : ShutterEvent).duration_frames : ℚ) = 7 := by
    norm_num [ShutterEvent.duration_frames]
  rw [hd] at h
  exact h

/-- Claim C10: an event with non-empty values and `end_frame ≥ start_frame`
has weighted duration at least 1 (the median frame gets weight 1; every
fallback branch returns the integer duration, which is at least 1), so the
duration that `calculate_shutter_speed` divides by is never zero when the
frame rates are positive. -/
theorem weighted_duration_pos (e : ShutterEvent)
    (hnv : e.brightness_values ≠ []) (hse : e.start_frame ≤ e.end_frame) :
    1 ≤ e.weighted_duration_frames
    ∧ ∀ (fps : ℚ) (rfps : Option ℚ) (uw : Bool), 0 < fps →
        (∀ r, rfps = some r → 0 < r) →
        shutterSpeedDenom e fps rfps uw ≠ 0 := by
  have hie : e.brightness_values.isEmpty = false := by
    simpa [List.isEmpty_iff] using hnv
  have hdurZ : (1 : ℤ) ≤ e.duration_frames := by
    have : (e.start_frame : ℤ) ≤ (e.end_frame : ℤ) := by exact_mod_cast hse
    rw [ShutterEvent.duration_frames]
    omega
  have hdur : (1 : ℚ) ≤ (e.duration_frames : ℚ) := by exact_mod_cast hdurZ
  have hw : 1 ≤ e.weighted_duration_frames := by
    cases hb : e.baseline_brightness with
    | none => simpa [ShutterEvent.weighted_duration_frames, hie, hb] using hdur
    | some base =>
      by_cases hpb : pyMedian e.brightness_values ≤ base
      · simpa [ShutterEvent.weighted_duration_frames, hie, hb, hpb] using hdur
      · have hw' : e.weighted_duration_frames
            = listSum (e.brightness_values.map
                (frameWeight base (pyMedian e.brightness_values))) := by
          simp [ShutterEvent.weighted_duration_frames, hie, hb, hpb]
        rw [hw', listSum]
        obtain ⟨b0, hb0, hmb0⟩ := exists_pyMedian_le e.brightness_values hnv
        exact one_le_sum_map _ _ (fun b _ => frameWeight_nonneg _ _ b) hb0
          (le_of_eq (frameWeight_eq_one (not_le.mp hpb) hmb0).symm)
  refine ⟨hw, fun fps rfps uw hfps hr => ?_⟩
  have heff : 0 < (match rfps with | some r => r | none => fps) := by
    cases rfps with
    | none => exact hfps
    | some r => exact hr r rfl
  have hfc : 0 < (if uw && e.baseline_brightness.isSome then
      e.weighted_duration_frames else ((e.duration_frames : ℚ))) := by
    by_cases hcond : (uw && e.baseline_brightness.isSome) = true
    · rw [if_pos hcond]; linarith
    · rw [if_neg hcond]; linarith
  have hpos : 0 < shutterSpeedDenom e fps rfps uw := by
    simp only [shutterSpeedDenom]
    exact div_pos hfc heff
  exact ne_of_gt hpos

/-- Claim C10 witness: a two-frame event with values `[50, 60]` and no
baseline, at 240 fps. -/
theorem weighted_duration_pos_witness :
    1 ≤ (⟨0, 1, [50, 60], none, none⟩ : ShutterEvent).weighted_duration_frames
    ∧ shutterSpeedDenom ⟨0, 1, [50, 60], none, none⟩ 240 none true ≠ 0 := by
  have h := weighted_duration_pos ⟨0, 1, [50, 60], none, none⟩ (by simp)
    (by norm_num)
  exact ⟨h.1, h.2 240 none true (by norm_num) (by intro r hr; cases hr)⟩

/-- Claim C7: the shutter speed is the reciprocal of the selected frame
count divided by the effective fps; the weighted count is selected exactly
when weighting is on and a baseline is set, and in every other case
(weighting off, or weighting on with the baseline absent) the integer
`duration_frames` is selected; the effective fps is the recording fps when
given, the saved fps otherwise; with weighting off it is the exact
reciprocal of `calculate_duration_seconds` on the same frames, and their
product is 1. -/
theorem calculate_shutter_speed_spec (e : ShutterEvent) (fps : ℚ)
    (rfps : Option ℚ) (hfps : 0 < fps) (hr : ∀ r, rfps = some r → 0 < r)
    (hse : e.start_frame ≤ e.end_frame) :
    (e.baseline_brightness.isSome = true →
        calculate_shutter_speed e fps rfps true
          = 1 / (e.weighted_duration_frames / rfps.getD fps))
    ∧ (∀ uw : Bool, (uw && e.baseline_brightness.isSome) = false →
        calculate_shutter_speed e fps rfps uw
          = 1 / ((e.duration_frames : ℚ) / rfps.getD fps))
    ∧ calculate_shutter_speed e fps rfps false
        = 1 / ((e.duration_frames : ℚ) / rfps.getD fps)
    ∧ calculate_shutter_speed e fps rfps false
        = 1 / calculate_duration_seconds (e.start_frame : ℤ) (e.end_frame : ℤ)
            fps rfps
    ∧ calculate_duration_seconds (e.start_frame : ℤ) (e.end_frame : ℤ) fps rfps
        * calculate_shutter_speed e fps rfps false = 1 := by
  have hfc : (0 : ℚ) < (e.duration_frames : ℚ) := by
    have hz : (1 : ℤ) ≤ e.duration_frames := by
      have : (e.start_frame : ℤ) ≤ (e.end_frame : ℤ) := by exact_mod_cast hse
      rw [ShutterEvent.duration_frames]
      omega
    have : (1 : ℚ) ≤ (e.duration_frames : ℚ) := by exact_mod_cast hz
    linarith
  have hcast : ((e.duration_frames : ℚ))
      = (((e.end_frame : ℤ) - (e.start_frame : ℤ) + 1 : ℤ) : ℚ) := by
    rw [ShutterEvent.duration_frames]
  have h2 : calculate_shutter_speed e fps rfps false
      = 1 / ((e.duration_frames : ℚ) / rfps.getD fps) := by
    cases rfps with
    | none =>
      simp [calculate_shutter_speed, shutterSpeedDenom]
    | some r =>
      simp [calculate_shutter_speed, shutterSpeedDenom]
  have h3 : calculate_shutter_speed e fps rfps false
      = 1 / calculate_duration_seconds (e.start_frame : ℤ) (e.end_frame : ℤ)
          fps rfps := by
    rw [h2]
    cases rfps with
    | none =>
      simp only [calculate_duration_seconds, Option.getD_none, ← hcast]
    | some r =>
      simp only [calculate_duration_seconds, Option.getD_some, ← hcast]
      have hfps' : fps ≠ 0 := ne_of_gt hfps
      rw [show ((e.duration_frames : ℚ) / fps) * (fps / r)
          = (e.duration_frames : ℚ) / r by field_simp]
  have h4 : calculate_duration_seconds (e.start_frame : ℤ) (e.end_frame : ℤ)
      fps rfps * calculate_shutter_speed e fps rfps false = 1 := by
    rw [h2]
    have hfcne : ((e.duration_frames : ℚ)) ≠ 0 := ne_of_gt hfc
    have hfpsne : fps ≠ 0 := ne_of_gt hfps
    cases rfps with
    | none =>
      simp only [calculate_duration_seconds, Option.getD_none, ← hcast]
      field_simp
    | some r =>
      have hrne : r ≠ 0 := ne_of_gt (hr r rfl)
      simp only [calculate_duration_seconds, Option.getD_some, ← hcast]
      field_simp
  have h1b : ∀ uw : Bool, (uw && e.baseline_brightness.isSome) = false →
      calculate_shutter_speed e fps rfps uw
        = 1 / ((e.duration_frames : ℚ) / rfps.getD fps) := by
    intro uw huw
    cases rfps with
    | none => simp [calculate_shutter_speed, shutterSpeedDenom, huw]
    | some r => simp [calculate_shutter_speed, shutterSpeedDenom, huw]
  refine ⟨?_, h1b, h2, h3, h4⟩
  intro hsome
  cases rfps with
  | none => simp [calculate_shutter_speed, shutterSpeedDenom, hsome]
  | some r => simp [calculate_shutter_speed, shutterSpeedDenom, hsome]

/-- Claim C7 witness: a two-frame baseline-free event at 240 fps without
recording fps: with weighting requested but no baseline the integer count
is used, speed is `1 / (2 / 240) = 120`, and duration times speed is 1. -/
theorem calculate_shutter_speed_spec_witness :
    calculate_shutter_speed ⟨0, 1, [], none, none⟩ 240 none true
        = 1 / ((2 : ℚ) / 240)
    ∧ calculate_shutter_speed ⟨0, 1, [], none, none⟩ 240 none false
        = 1 / ((2 : ℚ) / 240)
    ∧ calculate_duration_seconds 0 1 240 none
        * calculate_shutter_speed ⟨0, 1, [], none, none⟩ 240 none false = 1 := by
  have h := calculate_shutter_speed_spec ⟨0, 1, [], none, none⟩ 240 none
    (by norm_num) (by intro r hr; cases hr) (by norm_num)
  refine ⟨?_, ?_, ?_⟩
  · have h1b := h.2.1 true rfl
    norm_num [ShutterEvent.duration_frames] at h1b ⊢
    convert h1b using 2
  · have h2 := h.2.2.1
    norm_num [ShutterEvent.duration_frames] at h2 ⊢
    convert h2 using 2
  · have h4 := h.2.2.2.2
    simpa using h4

/-- Claim C8: for a non-empty event list whose events all carry values, the
peak is the median of the plateau means when at least one event qualifies,
otherwise the 95th percentile of all pooled event values; the result is
always present, and `None` is returned only for an empty event list. -/
theorem calculate_peak_brightness_spec (events : List (ℕ × ℕ × List ℚ))
    (plateau_threshold : ℚ) (min_plateau_frames : ℕ) (h1 : events ≠ [])
    (h2 : ∀ ev ∈ events, ev.2.2 ≠ []) :
    (plateauMeans events plateau_threshold min_plateau_frames ≠ [] →
        calculate_peak_brightness events plateau_threshold min_plateau_frames
          = some (pyMedian (plateauMeans events plateau_threshold
              min_plateau_frames)))
    ∧ (plateauMeans events plateau_threshold min_plateau_frames = [] →
        calculate_peak_brightness events plateau_threshold min_plateau_frames
          = some (npPercentile 95 (allEventBrightness events)))
    ∧ (calculate_peak_brightness events plateau_threshold
        min_plateau_frames).isSome = true
    ∧ calculate_peak_brightness [] plateau_threshold min_plateau_frames
        = none := by
  have hie : events.isEmpty = false := by simpa [List.isEmpty_iff] using h1
  have hall : allEventBrightness events ≠ [] := by
    cases events with
    | nil => exact absurd rfl h1
    | cons ev rest =>
      have hev : ev.2.2 ≠ [] := h2 ev (List.mem_cons_self ev rest)
      simp only [allEventBrightness, List.map_cons, List.flatten_cons]
      intro hcontra
      exact hev (List.append_eq_nil.mp hcontra).1
  have hallie : (allEventBrightness events).isEmpty = false := by
    simpa [List.isEmpty_iff] using hall
  constructor
  · intro hpm
    have hpmie : (plateauMeans events plateau_threshold
        min_plateau_frames).isEmpty = false := by
      simpa [List.isEmpty_iff] using hpm
    simp [calculate_peak_brightness, hie, hpmie]
  constructor
  · intro hpm
    simp [calculate_peak_brightness, hie, hpm, hallie]
  constructor
  · by_cases hpm : plateauMeans events plateau_threshold min_plateau_frames = []
    · simp [calculate_peak_brightness, hie, hpm, hallie]
    · have hpmie : (plateauMeans events plateau_threshold
          min_plateau_frames).isEmpty = false := by
        simpa [List.isEmpty_iff] using hpm
      simp [calculate_peak_brightness, hie, hpmie]
  · rfl

/-- Claim C8 witness: one event with values `[5, 6, 7]`, plateau threshold
0.9 and one required plateau frame: only `7 ≥ 6.3` qualifies, so the peak
is the median of the single plateau mean 7. -/
theorem calculate_peak_brightness_spec_witness :
    calculate_peak_brightness [(0, 2, [5, 6, 7])] (9 / 10) 1 = some 7 := by
  have hpm : plateauMeans [(0, 2, [5, 6, 7])] (9 / 10) 1 = [7] := by
    norm_num [plateauMeans, maxQ, listMean, listSum, List.filterMap]
  have h := (calculate_peak_brightness_spec [(0, 2, [5, 6, 7])] (9 / 10) 1
    (by simp) (by intro ev hev; simp at hev; rw [hev]; simp)).1
  rw [hpm] at h
  have h7 := h (by simp)
  rw [h7]
  norm_num [pyMedian, sortQ, List.insertionSort, List.orderedInsert]

lemma chain'_zip {α β : Type} {R : α → α → Prop} {S : β → β → Prop} :
    ∀ (xs : List α) (ys : List β), List.Chain' R xs → List.Chain' S ys →
      List.Chain' (fun p q => R p.1 q.1 ∧ S p.2 q.2) (xs.zip ys) := by
  intro xs
  induction xs with
  | nil =>
    intro ys _ _
    simp
  | cons x xs ih =>
    intro ys hx hy
    cases ys with
    | nil => simp
    | cons y ys =>
      cases xs with
      | nil => simp
      | cons x2 xs2 =>
        cases ys with
        | nil => simp
        | cons y2 ys2 =>
          rw [List.zip_cons_cons, List.zip_cons_cons, List.chain'_cons]
          refine ⟨⟨(List.chain'_cons.mp hx).1, (List.chain'_cons.mp hy).1⟩, ?_⟩
          have hrec := ih (y2 :: ys2) (List.chain'_cons.mp hx).2
            (List.chain'_cons.mp hy).2
          simpa using hrec

/-- Claim C9: the matcher pairs the events sorted ascending by duration
with the expected speeds sorted ascending, truncated to the shorter length
with no error for dropped entries; on durations `[50, 10, 5]` and speeds
`[1/30, 1/500, 1/125]` at 100 fps it produces exactly the pairs
`(5, 1/500)`, `(10, 1/125)`, `(50, 1/30)`. -/
theorem group_shutter_events_spec :
    (∀ (events : List ShutterEvent) (expected_speeds : List ℚ),
      (pairedEvents events expected_speeds).length
          = min events.length expected_speeds.length
      ∧ List.Chain' (fun p q => p.1.duration_frames ≤ q.1.duration_frames
          ∧ p.2 ≤ q.2) (pairedEvents events expected_speeds)
      ∧ (∀ p ∈ pairedEvents events expected_speeds,
          p.1 ∈ events ∧ p.2 ∈ expected_speeds))
    ∧ group_shutter_events [evDur50, evDur10, evDur5]
        [1 / 30, 1 / 500, 1 / 125] 100
      = [(1 / 500, [(evDur5, 20)]), (1 / 125, [(evDur10, 10)]),
         (1 / 30, [(evDur50, 2)])] := by
  constructor
  · intro events expected_speeds
    have hes : (events.insertionSort evLE).length = events.length :=
      (List.perm_insertionSort _ _).length_eq
    have hss : (expected_speeds.insertionSort (· ≤ ·)).length
        = expected_speeds.length := (List.perm_insertionSort _ _).length_eq
    refine ⟨?_, ?_, ?_⟩
    · simp only [pairedEvents, List.length_zip, List.length_take, hes, hss]
      omega
    · have hsorte : (events.insertionSort evLE).Pairwise evLE :=
        List.sorted_insertionSort evLE events
      have hsorts : (expected_speeds.insertionSort (· ≤ ·)).Pairwise (· ≤ ·) :=
        List.sorted_insertionSort _ expected_speeds
      simp only [pairedEvents]
      exact chain'_zip _ _
        (List.Pairwise.sublist (List.take_sublist _ _) hsorte).chain'
        (List.Pairwise.sublist (List.take_sublist _ _) hsorts).chain'
    · intro p hp
      simp only [pairedEvents] at hp
      cases p with
      | mk a b =>
        have hz := List.of_mem_zip hp
        exact ⟨(List.perm_insertionSort evLE events).subset
            (List.mem_of_mem_take hz.1),
          (List.perm_insertionSort _ expected_speeds).subset
            (List.mem_of_mem_take hz.2)⟩
  · norm_num [group_shutter_events, pairedEvents, List.insertionSort,
      List.orderedInsert, evLE, ShutterEvent.duration_frames, evDur5, evDur10,
      evDur50, dictAppend, calculate_shutter_speed, shutterSpeedDenom]

lemma fseAux_bounds (t : ℚ) :
    ∀ (l : List ℚ) (i lb : ℕ) (st : Option (ℕ × List ℚ)),
      (st = none → lb ≤ i) →
      (∀ s vs, st = some (s, vs) → s < i ∧ lb ≤ s) →
      ∀ e ∈ fseAux t l i st, lb ≤ e.1 ∧ e.1 ≤ e.2.1 ∧ e.2.1 < i + l.length := by
  intro l
  induction l with
  | nil =>
    intro i lb st hnone hsome e he
    cases st with
    | none => simp [fseAux] at he
    | some p =>
      obtain ⟨s, vs⟩ := p
      simp only [fseAux, List.mem_singleton] at he
      obtain ⟨hs1, hs2⟩ := hsome s vs rfl
      subst he
      refine ⟨hs2, ?_, ?_⟩
      · simp only []
        omega
      · simp only [List.length_nil]
        omega
  | cons b rest ih =>
    intro i lb st hnone hsome e he
    cases st with
    | none =>
      cases hb : is_shutter_open b t with
      | true =>
        rw [show fseAux t (b :: rest) i none
            = fseAux t rest (i + 1) (some (i, [b])) by simp [fseAux, hb]] at he
        obtain ⟨h1, h2, h3⟩ := ih (i + 1) lb (some (i, [b]))
          (by intro h; cases h)
          (by
            intro s vs hsv
            simp only [Option.some.injEq, Prod.mk.injEq] at hsv
            obtain ⟨hs, -⟩ := hsv
            subst hs
            exact ⟨Nat.lt_succ_self i, hnone rfl⟩) e he
        exact ⟨h1, h2, by simp only [List.length_cons]; omega⟩
      | false =>
        rw [show fseAux t (b :: rest) i none
            = fseAux t rest (i + 1) none by simp [fseAux, hb]] at he
        obtain ⟨h1, h2, h3⟩ := ih (i + 1) lb none
          (by intro _; exact le_trans (hnone rfl) (Nat.le_succ i))
          (by intro s vs h; cases h) e he
        exact ⟨h1, h2, by simp only [List.length_cons]; omega⟩
    | some p =>
      obtain ⟨s, vs⟩ := p
      obtain ⟨hsi, hlbs⟩ := hsome s vs rfl
      cases hb : is_shutter_open b t with
      | true =>
        rw [show fseAux t (b :: rest) i (some (s, vs))
            = fseAux t rest (i + 1) (some (s, vs ++ [b])) by
          simp [fseAux, hb]] at he
        obtain ⟨h1, h2, h3⟩ := ih (i + 1) lb (some (s, vs ++ [b]))
          (by intro h; cases h)
          (by
            intro s' vs' hsv
            simp only [Option.some.injEq, Prod.mk.injEq] at hsv
            obtain ⟨hs, -⟩ := hsv
            subst hs
            exact ⟨by omega, hlbs⟩) e he
        exact ⟨h1, h2, by simp only [List.length_cons]; omega⟩
      | false =>
        rw [show fseAux t (b :: rest) i (some (s, vs))
            = (s, i - 1, vs) :: fseAux t rest (i + 1) none by
          simp [fseAux, hb]] at he
        rcases List.mem_cons.mp he with rfl | he'
        · refine ⟨hlbs, ?_, ?_⟩
          · simp only []
            omega
          · simp only [List.length_cons]
            omega
        · obtain ⟨h1, h2, h3⟩ := ih (i + 1) lb none (by intro _; omega)
            (by intro s' vs' h; cases h) e he'
          exact ⟨h1, h2, by simp only [List.length_cons]; omega⟩

lemma fseAux_some_head (t : ℚ) :
    ∀ (l : List ℚ) (i s : ℕ) (vs : List ℚ),
      ∃ e E, fseAux t l i (some (s, vs)) = e :: E ∧ e.1 = s ∧ i ≤ e.2.1 + 1 := by
  intro l
  induction l with
  | nil =>
    intro i s vs
    exact ⟨(s, i - 1, vs), [], rfl, rfl, by simp only []; omega⟩
  | cons b rest ih =>
    intro i s vs
    cases hb : is_shutter_open b t with
    | true =>
      obtain ⟨e, E, heq, h1, h2⟩ := ih (i + 1) s (vs ++ [b])
      refine ⟨e, E, ?_, h1, by omega⟩
      rw [show fseAux t (b :: rest) i (some (s, vs))
          = fseAux t rest (i + 1) (some (s, vs ++ [b])) by simp [fseAux, hb]]
      exact heq
    | false =>
      refine ⟨(s, i - 1, vs), fseAux t rest (i + 1) none, ?_, rfl,
        by simp only []; omega⟩
      simp [fseAux, hb]

lemma fseAux_pairwise (t : ℚ) :
    ∀ (l : List ℚ) (i : ℕ) (st : Option (ℕ × List ℚ)),
      (∀ s vs, st = some (s, vs) → s < i) →
      List.Pairwise (fun e f => e.2.1 + 2 ≤ f.1) (fseAux t l i st) := by
  intro l
  induction l with
  | nil =>
    intro i st hsome
    cases st with
    | none => simp [fseAux]
    | some p =>
      obtain ⟨s, vs⟩ := p
      simp [fseAux]
  | cons b rest ih =>
    intro i st hsome
    cases st with
    | none =>
      cases hb : is_shutter_open b t with
      | true =>
        rw [show fseAux t (b :: rest) i none
            = fseAux t rest (i + 1) (some (i, [b])) by simp [fseAux, hb]]
        exact ih (i + 1) (some (i, [b]))
          (by
            intro s vs hsv
            simp only [Option.some.injEq, Prod.mk.injEq] at hsv
            omega)
      | false =>
        rw [show fseAux t (b :: rest) i none
            = fseAux t rest (i + 1) none by simp [fseAux, hb]]
        exact ih (i + 1) none (by intro s vs h; cases h)
    | some p =>
      obtain ⟨s, vs⟩ := p
      have hsi := hsome s vs rfl
      cases hb : is_shutter_open b t with
      | true =>
        rw [show fseAux t (b :: rest) i (some (s, vs))
            = fseAux t rest (i + 1) (some (s, vs ++ [b])) by
          simp [fseAux, hb]]
        exact ih (i + 1) (some (s, vs ++ [b]))
          (by
            intro s' vs' hsv
            simp only [Option.some.injEq, Prod.mk.injEq] at hsv
            omega)
      | false =>
        rw [show fseAux t (b :: rest) i (some (s, vs))
            = (s, i - 1, vs) :: fseAux t rest (i + 1) none by
          simp [fseAux, hb]]
        refine List.pairwise_cons.mpr ⟨?_, ih (i + 1) none
          (by intro s' vs' h; cases h)⟩
        intro f hf
        have hbound := fseAux_bounds t rest (i + 1) (i + 1) none
          (fun _ => le_refl _) (fun s' vs' h => by cases h) f hf
        simp only []
        omega

lemma fseAux_cover (t : ℚ) :
    ∀ (l : List ℚ) (i : ℕ) (st : Option (ℕ × List ℚ)),
      (∀ s vs, st = some (s, vs) → s < i) →
      ∀ (j : ℕ) (hj : j < l.length),
        (t < l.get ⟨j, hj⟩ ↔
          ∃ e ∈ fseAux t l i st, e.1 ≤ i + j ∧ i + j ≤ e.2.1) := by
  intro l
  induction l with
  | nil =>
    intro i st hsome j hj
    exact absurd hj (Nat.not_lt_zero j)
  | cons b rest ih =>
    intro i st hsome j hj
    cases st with
    | none =>
      cases hb : is_shutter_open b t with
      | true =>
        have htb : t < b := by simpa [is_shutter_open] using hb
        rw [show fseAux t (b :: rest) i none
            = fseAux t rest (i + 1) (some (i, [b])) by simp [fseAux, hb]]
        cases j with
        | zero =>
          show t < b ↔ _
          obtain ⟨e, E, heq, h1, h2⟩ := fseAux_some_head t rest (i + 1) i [b]
          refine ⟨fun _ => ⟨e, ?_, ?_, ?_⟩, fun _ => htb⟩
          · rw [heq]
            exact List.mem_cons_self e E
          · omega
          · omega
        | succ jj =>
          have hj' : jj < rest.length := by
            simpa using hj
          have hiff := ih (i + 1) (some (i, [b]))
            (by
              intro s vs hsv
              simp only [Option.some.injEq, Prod.mk.injEq] at hsv
              omega) jj hj'
          show t < rest.get ⟨jj, hj'⟩ ↔ _
          rw [hiff, show i + (jj + 1) = i + 1 + jj by omega]
      | false =>
        have hnb : ¬ t < b := by simpa [is_shutter_open] using hb
        rw [show fseAux t (b :: rest) i none
            = fseAux t rest (i + 1) none by simp [fseAux, hb]]
        cases j with
        | zero =>
          show t < b ↔ _
          refine ⟨fun h => absurd h hnb, ?_⟩
          rintro ⟨e, he, h1, h2⟩
          have hbound := fseAux_bounds t rest (i + 1) (i + 1) none
            (fun _ => le_refl _) (fun s' vs' h => by cases h) e he
          omega
        | succ jj =>
          have hj' : jj < rest.length := by
            simpa using hj
          have hiff := ih (i + 1) none (by intro s vs h; cases h) jj hj'
          show t < rest.get ⟨jj, hj'⟩ ↔ _
          rw [hiff, show i + (jj + 1) = i + 1 + jj by omega]
    | some p =>
      obtain ⟨s, vs⟩ := p
      have hsi := hsome s vs rfl
      cases hb : is_shutter_open b t with
      | true =>
        have htb : t < b := by simpa [is_shutter_open] using hb
        rw [show fseAux t (b :: rest) i (some (s, vs))
            = fseAux t rest (i + 1) (some (s, vs ++ [b])) by
          simp [fseAux, hb]]
        cases j with
        | zero =>
          show t < b ↔ _
          obtain ⟨e, E, heq, h1, h2⟩ := fseAux_some_head t rest (i + 1) s
            (vs ++ [b])
          refine ⟨fun _ => ⟨e, ?_, ?_, ?_⟩, fun _ => htb⟩
          · rw [heq]
            exact List.mem_cons_self e E
          · omega
          · omega
        | succ jj =>
          have hj' : jj < rest.length := by
            simpa using hj
          have hiff := ih (i + 1) (some (s, vs ++ [b]))
            (by
              intro s' vs' hsv
              simp only [Option.some.injEq, Prod.mk.injEq] at hsv
              omega) jj hj'
          show t < rest.get ⟨jj, hj'⟩ ↔ _
          rw [hiff, show i + (jj + 1) = i + 1 + jj by omega]
      | false =>
        have hnb : ¬ t < b := by simpa [is_shutter_open] using hb
        rw [show fseAux t (b :: rest) i (some (s, vs))
            = (s, i - 1, vs) :: fseAux t rest (i + 1) none by
          simp [fseAux, hb]]
        cases j with
        | zero =>
          show t < b ↔ _
          refine ⟨fun h => absurd h hnb, ?_⟩
          rintro ⟨e, he, h1, h2⟩
          rcases List.mem_cons.mp he with rfl | he'
          · simp only [] at h1 h2
            omega
          · have hbound := fseAux_bounds t rest (i + 1) (i + 1) none
              (fun _ => le_refl _) (fun s' vs' h => by cases h) e he'
            omega
        | succ jj =>
          have hj' : jj < rest.length := by
            simpa using hj
          have hiff := ih (i + 1) none (by intro s' vs' h; cases h) jj hj'
          show t < rest.get ⟨jj, hj'⟩ ↔ _
          rw [hiff]
          constructor
          · rintro ⟨e, he, h1, h2⟩
            exact ⟨e, List.mem_cons_of_mem _ he, by omega, by omega⟩
          · rintro ⟨e, he, h1, h2⟩
            rcases List.mem_cons.mp he with rfl | he'
            · simp only [] at h1 h2
              omega
            · exact ⟨e, he', by omega, by omega⟩

lemma pairwise_mem_rel {α : Type} {R : α → α → Prop} :
    ∀ {l : List α}, l.Pairwise R → ∀ {a b : α}, a ∈ l → b ∈ l →
      a = b ∨ R a b ∨ R b a := by
  intro l
  induction l with
  | nil =>
    intro _ a b ha
    cases ha
  | cons x xs ih =>
    intro hp a b ha hb
    obtain ⟨hx, hxs⟩ := List.pairwise_cons.mp hp
    rcases List.mem_cons.mp ha with rfl | ha' <;>
      rcases List.mem_cons.mp hb with rfl | hb'
    · exact Or.inl rfl
    · exact Or.inr (Or.inl (hx b hb'))
    · exact Or.inr (Or.inr (hx a ha'))
    · exact ih hxs ha' hb'

/-- Claim C2: the events are in ascending start order and non-overlapping
with at least one frame between consecutive events; every event is
well-formed and ends inside the series; a frame is strictly above the
threshold exactly when some event covers it (values equal to the threshold
are closed); a series that never exceeds the threshold yields the empty
list; the frame separating two consecutive events is at or below the
threshold; and when the last frame is open the final event closes at the
last index. -/
theorem find_shutter_events_spec (bv : List ℚ) (t : ℚ) :
    List.Pairwise (fun e f => e.2.1 + 2 ≤ f.1) (find_shutter_events bv t)
    ∧ (∀ e ∈ find_shutter_events bv t, e.1 ≤ e.2.1 ∧ e.2.1 < bv.length)
    ∧ (∀ (j : ℕ) (hj : j < bv.length),
        (t < bv.get ⟨j, hj⟩ ↔
          ∃ e ∈ find_shutter_events bv t, e.1 ≤ j ∧ j ≤ e.2.1))
    ∧ ((∀ b ∈ bv, b ≤ t) → find_shutter_events bv t = [])
    ∧ List.Chain' (fun e _ => ∃ hg : e.2.1 + 1 < bv.length,
        bv.get ⟨e.2.1 + 1, hg⟩ ≤ t) (find_shutter_events bv t)
    ∧ (∀ (hnil : bv ≠ []), t < bv.getLast hnil →
        ∃ e ∈ find_shutter_events bv t, e.2.1 = bv.length - 1) := by
  have hpw : List.Pairwise (fun e f => e.2.1 + 2 ≤ f.1)
      (find_shutter_events bv t) :=
    fseAux_pairwise t bv 0 none (by intro s vs h; cases h)
  have hbounds : ∀ e ∈ find_shutter_events bv t,
      0 ≤ e.1 ∧ e.1 ≤ e.2.1 ∧ e.2.1 < 0 + bv.length :=
    fseAux_bounds t bv 0 0 none (fun _ => le_refl 0) (fun s vs h => by cases h)
  have hcover' : ∀ (j : ℕ) (hj : j < bv.length),
      (t < bv.get ⟨j, hj⟩ ↔
        ∃ e ∈ find_shutter_events bv t, e.1 ≤ j ∧ j ≤ e.2.1) := by
    intro j hj
    have h := fseAux_cover t bv 0 none (by intro s vs h; cases h) j hj
    simpa using h
  refine ⟨hpw, ?_, hcover', ?_, ?_, ?_⟩
  · intro e he
    have h := hbounds e he
    exact ⟨h.2.1, by omega⟩
  · intro hall
    cases hE : find_shutter_events bv t with
    | nil => rfl
    | cons e E =>
      exfalso
      have heE : e ∈ find_shutter_events bv t := by
        rw [hE]
        exact List.mem_cons_self e E
      have hb := hbounds e heE
      have hj : e.1 < bv.length := by omega
      have hcov := (hcover' e.1 hj).mpr ⟨e, heE, le_refl _, hb.2.1⟩
      exact absurd hcov (not_lt.mpr (hall _ (List.get_mem _ _ _)))
  · rw [List.chain'_iff_get]
    intro n hn
    have hn1 : n < (find_shutter_events bv t).length := by omega
    have hn2 : n + 1 < (find_shutter_events bv t).length := by omega
    have hmem1 := List.get_mem (find_shutter_events bv t) n hn1
    have hmem2 := List.get_mem (find_shutter_events bv t) (n + 1) hn2
    have hrel : ((find_shutter_events bv t).get ⟨n, hn1⟩).2.1 + 2
        ≤ ((find_shutter_events bv t).get ⟨n + 1, hn2⟩).1 :=
      List.pairwise_iff_get.mp hpw ⟨n, hn1⟩ ⟨n + 1, hn2⟩
        (by simp only [Fin.mk_lt_mk]; omega)
    have hb1 := hbounds _ hmem1
    have hb2 := hbounds _ hmem2
    have hg : ((find_shutter_events bv t).get ⟨n, hn1⟩).2.1 + 1 < bv.length := by
      omega
    refine ⟨hg, ?_⟩
    by_contra hcontra
    push_neg at hcontra
    obtain ⟨e', he', h1, h2⟩ := (hcover' _ hg).mp hcontra
    have hb' := hbounds e' he'
    rcases pairwise_mem_rel hpw he' hmem1 with heq | hlt | hgt
    · rw [heq] at h2
      omega
    · omega
    · omega
  · intro hnil hlast
    have hlen : 0 < bv.length := List.length_pos.mpr hnil
    have hj : bv.length - 1 < bv.length := by omega
    have hget : bv.getLast hnil = bv.get ⟨bv.length - 1, hj⟩ :=
      List.getLast_eq_get bv hnil
    rw [hget] at hlast
    obtain ⟨e, he, h1, h2⟩ := (hcover' _ hj).mp hlast
    have hb := hbounds e he
    exact ⟨e, he, by omega⟩

/-- Claim C2 witness: the series `[1, 2]` never exceeds the threshold 5, so
the segmenter returns no events. -/
theorem find_shutter_events_spec_witness :
    find_shutter_events [(1 : ℚ), 2] 5 = [] :=
  (find_shutter_events_spec [(1 : ℚ), 2] 5).2.2.2.1
    (by intro b hb; fin_cases hb <;> norm_num)

lemma sorted_get_le {s : List ℚ} (hs : s.Sorted (· ≤ ·)) {i j : ℕ}
    (hij : i ≤ j) (hj : j < s.length) :
    s.get ⟨i, lt_of_le_of_lt hij hj⟩ ≤ s.get ⟨j, hj⟩ := by
  rcases eq_or_lt_of_le hij with rfl | hlt
  · exact le_refl _
  · exact List.Sorted.rel_get_of_lt hs (by simp only [Fin.mk_lt_mk]; exact hlt)

lemma floor_toNat_le {p : ℚ} (h : 0 ≤ p) : ((Int.floor p).toNat : ℚ) ≤ p := by
  have h1 : ((Int.floor p).toNat : ℤ) = Int.floor p :=
    Int.toNat_of_nonneg (Int.floor_nonneg.2 h)
  have h2 : (((Int.floor p).toNat : ℤ) : ℚ) ≤ p := by
    rw [h1]
    exact Int.floor_le p
  exact_mod_cast h2

lemma lt_floor_toNat_add_one {p : ℚ} (h : 0 ≤ p) :
    p < ((Int.floor p).toNat : ℚ) + 1 := by
  have h1 : ((Int.floor p).toNat : ℤ) = Int.floor p :=
    Int.toNat_of_nonneg (Int.floor_nonneg.2 h)
  have h2 : p < (((Int.floor p).toNat : ℤ) : ℚ) + 1 := by
    rw [h1]
    exact Int.lt_floor_add_one p
  exact_mod_cast h2

lemma floor_toNat_le_of_le {p : ℚ} (m : ℕ) (h : p ≤ (m : ℚ)) :
    (Int.floor p).toNat ≤ m := by
  have h1 : Int.floor p ≤ Int.floor ((m : ℚ)) := Int.floor_le_floor h
  rw [Int.floor_natCast] at h1
  omega

lemma floor_toNat_mono {p1 p2 : ℚ} (h : p1 ≤ p2) :
    (Int.floor p1).toNat ≤ (Int.floor p2).toNat := by
  have h1 : Int.floor p1 ≤ Int.floor p2 := Int.floor_le_floor h
  omega

lemma interpAt_eq_mid (s : List ℚ) (p : ℚ)
    (h : (Int.floor p).toNat + 1 < s.length) :
    interpAt s p = s.get ⟨(Int.floor p).toNat, by omega⟩
      + (p - ((Int.floor p).toNat : ℚ))
        * (s.get ⟨(Int.floor p).toNat + 1, h⟩
            - s.get ⟨(Int.floor p).toNat, by omega⟩) := by
  simp only [interpAt]
  rw [List.get?_eq_get (show (Int.floor p).toNat < s.length by omega),
    List.get?_eq_get h]

lemma interpAt_eq_last (s : List ℚ) (p : ℚ)
    (hk : (Int.floor p).toNat < s.length)
    (h : ¬ ((Int.floor p).toNat + 1 < s.length)) :
    interpAt s p = s.get ⟨(Int.floor p).toNat, hk⟩ := by
  simp only [interpAt]
  rw [List.get?_eq_get hk, List.get?_eq_none.mpr (by omega)]

lemma interpAt_ge (s : List ℚ) (hs : s.Sorted (· ≤ ·)) (p : ℚ) (h0 : 0 ≤ p)
    (hk : (Int.floor p).toNat < s.length) :
    s.get ⟨(Int.floor p).toNat, hk⟩ ≤ interpAt s p := by
  by_cases h : (Int.floor p).toNat + 1 < s.length
  · rw [interpAt_eq_mid s p h]
    have hfrac : 0 ≤ p - ((Int.floor p).toNat : ℚ) := by
      have := floor_toNat_le h0
      linarith
    have hab : s.get ⟨(Int.floor p).toNat, hk⟩
        ≤ s.get ⟨(Int.floor p).toNat + 1, h⟩ :=
      sorted_get_le hs (Nat.le_succ _) h
    nlinarith
  · rw [interpAt_eq_last s p hk h]

lemma interpAt_le_succ (s : List ℚ) (hs : s.Sorted (· ≤ ·)) (p : ℚ)
    (h0 : 0 ≤ p) (h : (Int.floor p).toNat + 1 < s.length) :
    interpAt s p ≤ s.get ⟨(Int.floor p).toNat + 1, h⟩ := by
  rw [interpAt_eq_mid s p h]
  have hfrac : 0 ≤ p - ((Int.floor p).toNat : ℚ) := by
    have := floor_toNat_le h0
    linarith
  have hfrac1 : p - ((Int.floor p).toNat : ℚ) < 1 := by
    have := lt_floor_toNat_add_one h0
    linarith
  have hab : s.get ⟨(Int.floor p).toNat, by omega⟩
      ≤ s.get ⟨(Int.floor p).toNat + 1, h⟩ :=
    sorted_get_le hs (Nat.le_succ _) h
  nlinarith

lemma get_val_eq (s : List ℚ) (i j : ℕ) (hi : i < s.length)
    (hj : j < s.length) (h : i = j) : s.get ⟨i, hi⟩ = s.get ⟨j, hj⟩ := by
  subst h
  rfl

lemma interpAt_mono (s : List ℚ) (hs : s.Sorted (· ≤ ·)) {p1 p2 : ℚ}
    (h0 : 0 ≤ p1) (h12 : p1 ≤ p2) (hub : p2 ≤ (s.length : ℚ) - 1) :
    interpAt s p1 ≤ interpAt s p2 := by
  have h02 : 0 ≤ p2 := le_trans h0 h12
  have hn : 1 ≤ s.length := by
    by_contra hcon
    push_neg at hcon
    have hz : s.length = 0 := by omega
    rw [hz] at hub
    norm_num at hub
    linarith
  have hcast : p2 ≤ ((s.length - 1 : ℕ) : ℚ) := by
    have h1 : ((s.length - 1 : ℕ) : ℚ) = ((s.length : ℚ)) - 1 := by
      push_cast [Nat.cast_sub hn]
      ring
    rw [h1]
    exact hub
  have hk2lt : (Int.floor p2).toNat < s.length := by
    have h2 := floor_toNat_le_of_le (s.length - 1) hcast
    omega
  have hk1lt : (Int.floor p1).toNat < s.length := by
    have h3 := floor_toNat_mono h12
    omega
  rcases eq_or_lt_of_le (floor_toNat_mono h12) with heq | hlt
  · by_cases hmid : (Int.floor p1).toNat + 1 < s.length
    · have hmid2 : (Int.floor p2).toNat + 1 < s.length := by omega
      rw [interpAt_eq_mid s p1 hmid, interpAt_eq_mid s p2 hmid2]
      have hf1 : 0 ≤ p1 - ((Int.floor p1).toNat : ℚ) := by
        have h4 := floor_toNat_le h0
        linarith
      have hf12 : p1 - ((Int.floor p1).toNat : ℚ)
          ≤ p2 - ((Int.floor p2).toNat : ℚ) := by
        rw [← heq]
        linarith
      have hab : s.get ⟨(Int.floor p1).toNat, by omega⟩
          ≤ s.get ⟨(Int.floor p1).toNat + 1, hmid⟩ :=
        sorted_get_le hs (Nat.le_succ _) hmid
      have hget1 : s.get ⟨(Int.floor p2).toNat, by omega⟩
          = s.get ⟨(Int.floor p1).toNat, by omega⟩ :=
        get_val_eq s _ _ (by omega) (by omega) heq.symm
      have hget2 : s.get ⟨(Int.floor p2).toNat + 1, hmid2⟩
          = s.get ⟨(Int.floor p1).toNat + 1, hmid⟩ :=
        get_val_eq s _ _ hmid2 hmid (by omega)
      rw [hget1, hget2, ← heq]
      nlinarith
    · rw [interpAt_eq_last s p1 hk1lt hmid,
        interpAt_eq_last s p2 hk2lt (by omega)]
      rw [get_val_eq s _ _ hk2lt hk1lt heq.symm]
  · have h1le : interpAt s p1 ≤ s.get ⟨(Int.floor p1).toNat + 1, by omega⟩ :=
      interpAt_le_succ s hs p1 h0 (by omega)
    have h2ge : s.get ⟨(Int.floor p2).toNat, hk2lt⟩ ≤ interpAt s p2 :=
      interpAt_ge s hs p2 h02 hk2lt
    have hmidle : s.get ⟨(Int.floor p1).toNat + 1, by omega⟩
        ≤ s.get ⟨(Int.floor p2).toNat, hk2lt⟩ :=
      sorted_get_le hs (by omega) hk2lt
    linarith

lemma npPercentile_mono (xs : List ℚ) (hne : xs ≠ []) {q1 q2 : ℚ}
    (h0 : 0 ≤ q1) (h12 : q1 ≤ q2) (h100 : q2 ≤ 100) :
    npPercentile q1 xs ≤ npPercentile q2 xs := by
  have hn : 1 ≤ xs.length := List.length_pos.mpr hne
  have hn1 : (0 : ℚ) ≤ (xs.length : ℚ) - 1 := by
    have : (1 : ℚ) ≤ (xs.length : ℚ) := by exact_mod_cast hn
    linarith
  rw [npPercentile, npPercentile]
  apply interpAt_mono (sortQ xs) (sortQ_sorted xs)
  · positivity
  · have := mul_le_mul_of_nonneg_right h12 hn1
    linarith
  · have hlen : ((sortQ xs).length : ℚ) = (xs.length : ℚ) := by
      exact_mod_cast sortQ_length xs
    rw [hlen, div_le_iff (by norm_num : (0 : ℚ) < 100)]
    nlinarith

lemma pyMedian_eq_npPercentile_50 (xs : List ℚ) (hne : xs ≠ []) :
    pyMedian xs = npPercentile 50 xs := by
  have hsl : (sortQ xs).length = xs.length := sortQ_length xs
  have hn : 1 ≤ xs.length := List.length_pos.mpr hne
  rcases Nat.even_or_odd xs.length with ⟨m, hm⟩ | ⟨m, hm⟩
  · have hm1 : 1 ≤ m := by omega
    have hcastN : (xs.length : ℚ) = (m : ℚ) + (m : ℚ) := by
      exact_mod_cast congrArg (fun k : ℕ => (k : ℚ)) hm
    have hpos : 50 * ((xs.length : ℚ) - 1) / 100 = (m : ℚ) - 1 / 2 := by
      rw [hcastN]
      ring
    have hfl : Int.floor (50 * ((xs.length : ℚ) - 1) / 100) = (m : ℤ) - 1 := by
      rw [hpos]
      refine Int.floor_eq_iff.mpr ⟨?_, ?_⟩ <;> push_cast <;> linarith
    have hkval : (Int.floor (50 * ((xs.length : ℚ) - 1) / 100)).toNat
        = m - 1 := by
      rw [hfl]
      omega
    have hmid : (Int.floor (50 * ((xs.length : ℚ) - 1) / 100)).toNat + 1
        < (sortQ xs).length := by
      rw [hkval, hsl, hm]
      omega
    rw [npPercentile, interpAt_eq_mid _ _ hmid]
    have hb1 : m - 1 < (sortQ xs).length := by
      rw [hsl, hm]
      omega
    have hb2 : m < (sortQ xs).length := by
      rw [hsl, hm]
      omega
    rw [get_val_eq (sortQ xs) _ _ (by omega) hb1 hkval,
      get_val_eq (sortQ xs) _ _ hmid hb2 (by omega)]
    have hfrac : 50 * ((xs.length : ℚ) - 1) / 100
        - (((Int.floor (50 * ((xs.length : ℚ) - 1) / 100)).toNat : ℚ))
        = 1 / 2 := by
      rw [hkval, hpos]
      have : ((m - 1 : ℕ) : ℚ) = (m : ℚ) - 1 := by
        push_cast [Nat.cast_sub hm1]
        ring
      rw [this]
      ring
    rw [hfrac]
    simp only [pyMedian]
    rw [if_neg (by rw [hsl, hm]; omega)]
    have hd1 : (sortQ xs).length / 2 - 1 = m - 1 := by
      rw [hsl, hm]
      omega
    have hd2 : (sortQ xs).length / 2 = m := by
      rw [hsl, hm]
      omega
    rw [hd1, hd2, List.getD_eq_get _ _ hb1, List.getD_eq_get _ _ hb2]
    ring
  · have hcastN : (xs.length : ℚ) = 2 * (m : ℚ) + 1 := by
      exact_mod_cast congrArg (fun k : ℕ => (k : ℚ)) hm
    have hpos : 50 * ((xs.length : ℚ) - 1) / 100 = (m : ℚ) := by
      rw [hcastN]
      ring
    have hfl : Int.floor (50 * ((xs.length : ℚ) - 1) / 100) = (m : ℤ) := by
      rw [hpos]
      exact_mod_cast Int.floor_natCast m
    have hkval : (Int.floor (50 * ((xs.length : ℚ) - 1) / 100)).toNat = m := by
      rw [hfl]
      omega
    have hb2 : m < (sortQ xs).length := by
      rw [hsl, hm]
      omega
    have hodd : (sortQ xs).length % 2 = 1 := by
      rw [hsl, hm]
      omega
    have hd2 : (sortQ xs).length / 2 = m := by
      rw [hsl, hm]
      omega
    by_cases hmid : (Int.floor (50 * ((xs.length : ℚ) - 1) / 100)).toNat + 1
        < (sortQ xs).length
    · rw [npPercentile, interpAt_eq_mid _ _ hmid]
      rw [get_val_eq (sortQ xs) _ _ (by omega) hb2 hkval]
      have hfrac : 50 * ((xs.length : ℚ) - 1) / 100
          - (((Int.floor (50 * ((xs.length : ℚ) - 1) / 100)).toNat : ℚ))
          = 0 := by
        rw [hkval, hpos]
        ring
      rw [hfrac]
      simp only [pyMedian]
      rw [if_pos hodd, hd2, List.getD_eq_get _ _ hb2]
      ring
    · rw [npPercentile,
        interpAt_eq_last _ _ (by rw [hkval]; exact hb2) hmid]
      rw [get_val_eq (sortQ xs) _ _ (by rw [hkval]; exact hb2) hb2 hkval]
      simp only [pyMedian]
      rw [if_pos hodd, hd2, List.getD_eq_get _ _ hb2]

/-- Claim C3: the original percentile-margin method returns
`baseline + (median - baseline) * margin_factor`, replaced by
`baseline + (max - baseline) * 0.1` exactly when that expression equals
the baseline (i.e. the median equals the baseline); for a percentile at or
below the 50th and a positive margin factor the returned threshold is
strictly greater than the baseline whenever the series maximum exceeds the
baseline. -/
theorem originalThreshold_spec (bv : List ℚ) (pt mf : ℚ) (hne : bv ≠ [])
    (hpt0 : 0 ≤ pt) (hpt50 : pt ≤ 50) (hmf : 0 < mf) :
    (pyMedian bv = npPercentile pt bv →
        originalThreshold bv pt mf
          = npPercentile pt bv + (maxQ bv - npPercentile pt bv) * (1 / 10))
    ∧ (pyMedian bv ≠ npPercentile pt bv →
        originalThreshold bv pt mf
          = npPercentile pt bv + (pyMedian bv - npPercentile pt bv) * mf)
    ∧ (npPercentile pt bv < maxQ bv →
        npPercentile pt bv < originalThreshold bv pt mf) := by
  have hble : npPercentile pt bv ≤ pyMedian bv := by
    rw [pyMedian_eq_npPercentile_50 bv hne]
    exact npPercentile_mono bv hne hpt0 hpt50 (by norm_num)
  have h1 : pyMedian bv = npPercentile pt bv →
      originalThreshold bv pt mf
        = npPercentile pt bv + (maxQ bv - npPercentile pt bv) * (1 / 10) := by
    intro heq
    simp only [originalThreshold]
    rw [if_pos (by rw [heq]; ring)]
  have h2 : pyMedian bv ≠ npPercentile pt bv →
      originalThreshold bv pt mf
        = npPercentile pt bv + (pyMedian bv - npPercentile pt bv) * mf := by
    intro hneq
    simp only [originalThreshold]
    rw [if_neg]
    intro hcontra
    have hzero : (pyMedian bv - npPercentile pt bv) * mf = 0 := by linarith
    rcases mul_eq_zero.mp hzero with h | h
    · exact hneq (by linarith)
    · exact (ne_of_gt hmf) h
  refine ⟨h1, h2, ?_⟩
  intro hmax
  by_cases heq : pyMedian bv = npPercentile pt bv
  · rw [h1 heq]
    nlinarith
  · rw [h2 heq]
    have hlt : npPercentile pt bv < pyMedian bv :=
      lt_of_le_of_ne hble (fun h => heq h.symm)
    nlinarith

/-- Claim C3 witness: the series `[0, 0, 0, 4]` at the default parameters
(25th percentile, margin factor 1.5); the 25th percentile and median are
both 0 while the maximum is 4, so the degenerate fallback fires and the
threshold is strictly above the baseline. -/
theorem originalThreshold_spec_witness :
    npPercentile 25 [0, 0, 0, 4] < originalThreshold [0, 0, 0, 4] 25 (3 / 2) :=
  (originalThreshold_spec [0, 0, 0, 4] 25 (3 / 2) (by simp) (by norm_num)
      (by norm_num) (by norm_num)).2.2
    (by
      norm_num [npPercentile, interpAt, sortQ, List.insertionSort,
        List.orderedInsert, maxQ])

/-- Claim C9 witness: one event against one expected speed pairs into a
single entry. -/
theorem group_shutter_events_spec_witness :
    (pairedEvents [evDur5] [(1 : ℚ) / 500]).length = 1 := by
  have h := (group_shutter_events_spec).1 [evDur5] [(1 : ℚ) / 500]
  simpa using h.1

/-- Claim C1 witness for the amended statement: concrete instance of the
silent fallback on the series `[1, 2]`. -/
theorem analyze_threshold_silent_fallback_witness :
    analyze_brightness_distribution_threshold sqrt0 cluster0 [1, 2] 25 (3 / 2)
      "zscore" none = originalThreshold [1, 2] 25 (3 / 2) :=
  (analyze_threshold_silent_fallback sqrt0 cluster0 [1, 2] 25 (3 / 2)).1
